import Mathlib

/-!
Verification of the PDX script parser and the streaming block locator of the
eu5-stats repository (src/parser.py, src/generate_report.py,
src/compare_players.py).

The Python cursor `self.pos` over `self.text` is represented throughout by
the remaining input suffix `text[pos:]` (a `List Char`); every scanning
primitive consumes characters from the front of that suffix and returns the
rest.  Machine-level details the claims do not touch (regular-expression
metacharacters inside keys, unicode digits accepted by Python's `int`) are
noted at the definition that abstracts them.
-/

namespace EU5

/-- The whitespace set of `PDXParser.skip_whitespace` (parser.py line 22). -/
def isPdxWs (c : Char) : Bool :=
  c == ' ' || c == '\t' || c == '\n' || c == '\r'

mutual

/-- parser.py lines 18-29, `skip_whitespace`: drop whitespace; a `#` starts a
comment that runs to the end of the line and is treated as whitespace. -/
def skip_ws : List Char → List Char
  | [] => []
  | c :: rest =>
    if isPdxWs c then skip_ws rest
    else if c == '#' then skip_ws_comment rest
    else c :: rest

/-- parser.py lines 25-27: inside a comment, drop characters until a newline,
then resume whitespace skipping (the newline itself is whitespace). -/
def skip_ws_comment : List Char → List Char
  | [] => []
  | c :: rest => if c == '\n' then skip_ws rest else skip_ws_comment rest

end

/-- parser.py lines 38-50, `parse_string` after the opening quote: returns the
string contents (a backslash and the following character are copied verbatim,
no unescaping) and the suffix after the closing quote.  An unterminated
string consumes to end of input. -/
def scan_string : List Char → List Char × List Char
  | [] => ([], [])
  | c :: rest =>
    if c == '"' then ([], rest)
    else if c == '\\' then
      match rest with
      | [] => ([c], [])
      | d :: rest2 =>
        let p := scan_string rest2
        (c :: d :: p.1, p.2)
    else
      let p := scan_string rest
      (c :: p.1, p.2)

/-- The delimiter set of `PDXParser.parse_identifier` (parser.py line 57). -/
def isIdentBreak (c : Char) : Bool :=
  isPdxWs c || c == '=' || c == '\x7b' || c == '\x7d' || c == '#'

/-- parser.py lines 52-60, `parse_identifier`: read a bare token up to a
delimiter; returns the token and the unconsumed suffix. -/
def scan_ident : List Char → List Char × List Char
  | [] => ([], [])
  | c :: rest =>
    if isIdentBreak c then ([], c :: rest)
    else
      let p := scan_ident rest
      (c :: p.1, p.2)

mutual

/-- parser.py lines 104-124, the lookahead of `parse_block`: scan forward at
the block's own depth, skipping nested braces; report `true` when a depth-0
`=` is found before the depth-0 closing brace, `false` at that brace or at
end of input. -/
def scan_is_dict : List Char → Nat → Bool
  | [], _ => false
  | c :: rest, depth =>
    if c == '\x7b' then scan_is_dict rest (depth + 1)
    else if c == '\x7d' then
      if depth = 0 then false else scan_is_dict rest (depth - 1)
    else if c == '=' then
      if depth = 0 then true else scan_is_dict rest depth
    else if c == '"' then scan_is_dict_str rest depth
    else scan_is_dict rest depth

/-- parser.py lines 118-123: the lookahead inside a quoted string; characters
(including braces and `=`) are skipped until the closing quote, a backslash
skipping the character after it.  Running off the end leaves the
classification at `false`. -/
def scan_is_dict_str : List Char → Nat → Bool
  | [], _ => false
  | c :: rest, depth =>
    if c == '"' then scan_is_dict rest depth
    else if c == '\\' then
      match rest with
      | [] => false
      | _ :: rest2 => scan_is_dict_str rest2 depth
    else scan_is_dict_str rest depth

end

/-- Decimal value of a digit list (most significant first). -/
def digitsVal (ds : List Char) : Nat :=
  ds.foldl (fun a c => 10 * a + (c.toNat - '0'.toNat)) 0

/-- Python's `int(token)` on the tokens `parse_identifier` can produce,
modelled for ASCII decimal literals: an optional sign followed by one or more
digits.  (Python's `int` additionally accepts underscores between digits and
non-ASCII decimal digits; such tokens never occur in these save files and are
modelled as failures.) -/
def pyInt (s : List Char) : Option Int :=
  match s with
  | [] => none
  | c :: rest =>
    if c == '-' then
      if rest ≠ [] ∧ rest.all Char.isDigit then some (-(digitsVal rest : Int)) else none
    else if c == '+' then
      if rest ≠ [] ∧ rest.all Char.isDigit then some (digitsVal rest : Int) else none
    else if (c :: rest).all Char.isDigit then some (digitsVal (c :: rest) : Int)
    else none

/-- Unsigned part of Python's `float(token)`: `digits . digits` with at least
one digit present on either side, valued as an exact rational.  (Python floats
are IEEE-754 doubles; the claims only compare decimal literals, which we model
exactly.  Exponent forms, `inf` and `nan` never occur in these save files and
are modelled as failures.) -/
def pyFloatCore (s : List Char) : Option Rat :=
  let ip := s.takeWhile Char.isDigit
  let rest := s.dropWhile Char.isDigit
  match rest with
  | [] => none
  | c :: fp =>
    if c == '.' then
      if fp.all Char.isDigit ∧ (ip ≠ [] ∨ fp ≠ []) then
        some (mkRat (digitsVal ip * 10 ^ fp.length + digitsVal fp) (10 ^ fp.length))
      else none
    else none

/-- Python's `float(token)` with an optional leading sign. -/
def pyFloat (s : List Char) : Option Rat :=
  match s with
  | [] => none
  | c :: rest =>
    if c == '-' then (pyFloatCore rest).map (fun q => -q)
    else if c == '+' then pyFloatCore rest
    else pyFloatCore (c :: rest)

/-- The value tree produced by the parser.  `null` is Python's `None`,
returned by `parse_value` at end of input; mappings are insertion-ordered
association lists, exactly as Python dicts are. -/
inductive PValue where
  | str (s : List Char)
  | int (n : Int)
  | float (q : Rat)
  | bool (b : Bool)
  | dict (entries : List (List Char × PValue))
  | list (items : List PValue)
  | null
deriving Repr

/-- parser.py lines 76-87, the bare-token arm of `parse_value`: `yes`/`no`
become booleans; a token containing `.` is tried as a float, otherwise as an
int; on conversion failure the raw token is kept as a string. -/
def identValue (ident : List Char) : PValue :=
  if ident = "yes".toList then .bool true
  else if ident = "no".toList then .bool false
  else if ident.contains '.' then
    match pyFloat ident with
    | some q => .float q
    | none => .str ident
  else
    match pyInt ident with
    | some n => .int n
    | none => .str ident

/-- First value stored under a key in an insertion-ordered mapping. -/
def lookupVal (m : List (List Char × PValue)) (k : List Char) : Option PValue :=
  match m with
  | [] => none
  | kv :: rest => if kv.1 = k then some kv.2 else lookupVal rest k

/-- parser.py lines 163-165: the value already stored under a duplicated key
is wrapped into a one-element list unless it is already a list, then the new
value is appended. -/
def appendDup (old v : PValue) : PValue :=
  match old with
  | .list items => .list (items ++ [v])
  | w => .list [w, v]

/-- parser.py lines 161-167: store a parsed `key = value` pair, coalescing a
duplicate key into a list via `appendDup`; a fresh key is appended at the end
(Python dicts preserve insertion order). -/
def insertDup (m : List (List Char × PValue)) (k : List Char) (v : PValue) :
    List (List Char × PValue) :=
  if (lookupVal m k).isSome then
    m.map (fun kv => if kv.1 = k then (kv.1, appendDup kv.2 v) else kv)
  else m ++ [(k, v)]

mutual

/-- parser.py lines 62-87, `parse_value`: skip whitespace; at end of input
return Python's `None` (`PValue.null`); dispatch on `"` (string), `\x7b`
(block) and bare tokens.  `fuel` bounds the number of loop iterations and
recursive calls the Python code would perform; `none` means the bound was
exhausted (in particular, a run that diverges returns `none` for every
fuel). -/
def parseValueF : Nat → List Char → Option (PValue × List Char)
  | 0, _ => none
  | fuel + 1, s =>
    match skip_ws s with
    | [] => some (.null, [])
    | c :: rest =>
      if c == '"' then
        let p := scan_string rest
        some (.str p.1, p.2)
      else if c == '\x7b' then parseBlockF fuel (c :: rest)
      else
        let p := scan_ident (c :: rest)
        some (identValue p.1, p.2)

/-- parser.py lines 89-129, `parse_block`: step past the opening brace and
skip whitespace; at `\x7d` or end of input return an empty mapping; otherwise
classify with the `scan_is_dict` lookahead and parse dict or list contents. -/
def parseBlockF : Nat → List Char → Option (PValue × List Char)
  | 0, _ => none
  | fuel + 1, s =>
    match skip_ws (s.drop 1) with
    | [] => some (.dict [], [])
    | c :: rest =>
      if c == '\x7d' then some (.dict [], rest)
      else if scan_is_dict (c :: rest) 0 then
        (parseDictF fuel (c :: rest) []).map (fun r => (.dict r.1, r.2))
      else
        (parseListF fuel (c :: rest) []).map (fun r => (.list r.1, r.2))

/-- parser.py lines 131-169, `parse_dict_contents`: loop parsing
`key = value` pairs into `acc` until `\x7d` or end of input; a key is a quoted
string or a bare identifier; when no `=` follows the key the loop continues
without consuming anything further (parser.py line 156); duplicate keys are
coalesced by `insertDup`. -/
def parseDictF : Nat → List Char → List (List Char × PValue) →
    Option (List (List Char × PValue) × List Char)
  | 0, _, _ => none
  | fuel + 1, s, acc =>
    match skip_ws s with
    | [] => some (acc, [])
    | c :: rest =>
      if c == '\x7d' then some (acc, rest)
      else
        let kp := if c == '"' then scan_string rest else scan_ident (c :: rest)
        match skip_ws kp.2 with
        | [] => parseDictF fuel [] acc
        | c2 :: rest2 =>
          if c2 == '=' then
            match parseValueF fuel rest2 with
            | none => none
            | some (v, s3) => parseDictF fuel s3 (insertDup acc kp.1 v)
          else parseDictF fuel (c2 :: rest2) acc

/-- parser.py lines 171-186, `parse_list_contents`: loop parsing bare values
into `acc` until `\x7d` or end of input. -/
def parseListF : Nat → List Char → List PValue →
    Option (List PValue × List Char)
  | 0, _, _ => none
  | fuel + 1, s, acc =>
    match skip_ws s with
    | [] => some (acc, [])
    | c :: rest =>
      if c == '\x7d' then some (acc, rest)
      else
        match parseValueF fuel (c :: rest) with
        | none => none
        | some (v, s2) => parseListF fuel s2 (acc ++ [v])

end

/-- parser.py lines 188-196, `parse_pdx` / `PDXParser.parse`: the whole text
is parsed as dict contents. -/
def parsePdxF (fuel : Nat) (text : List Char) : Option (List (List Char × PValue)) :=
  (parseDictF fuel text []).map (fun r => r.1)

/-! ## String helpers shared by the extraction / locator code

Python's `str.strip`, `str.startswith`, `in` (substring test), `re.search`
with a literal pattern, and per-line character counting, on `List Char`. -/

/-- The whitespace set of Python's `str.strip`. -/
def isPyStripWs (c : Char) : Bool :=
  c == ' ' || c == '\t' || c == '\n' || c == '\r' || c == '\x0b' || c == '\x0c'

/-- Python `line.strip()`. -/
def pyStrip (l : List Char) : List Char :=
  ((l.dropWhile isPyStripWs).reverse.dropWhile isPyStripWs).reverse

/-- Python `l.startswith(p)`. -/
def startsWith : List Char → List Char → Bool
  | _, [] => true
  | [], _ :: _ => false
  | c :: cs, d :: ds => c == d && startsWith cs ds

/-- Python `sub in l`. -/
def containsSub (l sub : List Char) : Bool :=
  match l with
  | [] => sub.isEmpty
  | c :: rest => startsWith (c :: rest) sub || containsSub rest sub

/-- Index of the leftmost occurrence of `pat` in `text`, as found by
`re.search` on a literal pattern.  (The Python code interpolates the key into
a regular expression; the keys actually passed are plain identifiers, so
metacharacter behaviour is out of the modelled fragment.) -/
def findSub (text pat : List Char) : Option Nat :=
  match text with
  | [] => if pat.isEmpty then some 0 else none
  | c :: rest =>
    if startsWith (c :: rest) pat then some 0
    else (findSub rest pat).map (fun j => j + 1)

/-- `line.count(brace-open) - line.count(brace-close)`, the per-line depth
update used by every line-based locator loop. -/
def netBraces (l : List Char) : Int :=
  (l.count '\x7b' : Int) - (l.count '\x7d' : Int)

/-! ## extract_value (generate_report.py 161-168, compare_players.py 112-120) -/

/-- `extract_value`: `re.search` and the cast are abstracted: `group` is the
first capture group of the first match of the pattern (`none` when the
pattern does not match) and `cast g = none` models the Python conversion
raising (`ValueError`/`TypeError`; generate_report.py line 166 catches every
exception).  Both failure paths fall back to the caller-supplied default. -/
def extract_value {α : Type} (group : Option (List Char))
    (cast : List Char → Option α) (dflt : α) : α :=
  match group with
  | none => dflt
  | some g => (cast g).getD dflt

/-! ## extract_block (generate_report.py 171-185, compare_players.py 123-141) -/

/-- One step of the naive brace-depth update of `extract_block` (lines
179-182): braces count whether or not they sit inside a quoted string. -/
def braceStep (c : Char) (depth : Nat) : Nat :=
  if c == '\x7b' then depth + 1
  else if c == '\x7d' then depth - 1
  else depth

/-- The characters consumed by the `extract_block` loop: starting at `depth`,
consume characters (updating the depth with `braceStep`) while the depth is
positive and input remains.  The depth-0-closing brace itself is consumed
(the Python loop increments `pos` before re-testing `depth > 0`). -/
def scanBlockChars : List Char → Nat → List Char
  | [], _ => []
  | c :: rest, depth =>
    if depth = 0 then []
    else c :: scanBlockChars rest (braceStep c depth)

/-- `extract_block(text, key)`: locate the first `key=\x7b`, then return
`text[start:pos-1]` where `pos` is where the naive depth scan stopped —
i.e. the consumed characters minus the last one. -/
def extract_block (text key : List Char) : List Char :=
  match findSub text (key ++ "=\x7b".toList) with
  | none => []
  | some i => (scanBlockChars (text.drop (i + key.length + 2)) 1).dropLast

mutual

/-- Modelled from the spec (§4.2 `extractBlock`): the scan to the matching
brace "using the same brace-depth-counting scan as the parser's block-kind
detector", i.e. skipping braces that occur inside quoted strings exactly as
`scan_is_dict` does.  Spec-side definition, to be compared with
`scanBlockChars`. -/
def scanBlockCharsQ : List Char → Nat → List Char
  | [], _ => []
  | c :: rest, depth =>
    if depth = 0 then []
    else if c == '"' then c :: scanBlockCharsQStr rest depth
    else c :: scanBlockCharsQ rest (braceStep c depth)

/-- Modelled from the spec: inside a quoted string the scan consumes every
character (braces included) up to the closing quote, a backslash skipping the
character after it, as in parser.py lines 118-123. -/
def scanBlockCharsQStr : List Char → Nat → List Char
  | [], _ => []
  | c :: rest, depth =>
    if c == '"' then c :: scanBlockCharsQ rest depth
    else if c == '\\' then
      match rest with
      | [] => [c]
      | d :: rest2 => c :: d :: scanBlockCharsQStr rest2 depth
    else c :: scanBlockCharsQStr rest depth

end

/-- Modelled from the spec (§4.2): `extractBlock` with the quote-aware
matching-brace scan.  Spec-side definition for claim C7. -/
def extract_block_spec (text key : List Char) : List Char :=
  match findSub text (key ++ "=\x7b".toList) with
  | none => []
  | some i => (scanBlockCharsQ (text.drop (i + key.length + 2)) 1).dropLast

/-- The scan of `extract_block` runs off the end of the input without the
depth ever returning to zero. -/
def neverCloses : List Char → Nat → Bool
  | [], _ => true
  | c :: rest, depth =>
    if depth = 0 then false
    else neverCloses rest (braceStep c depth)

/-! ## extract_section (parser.py 199-220) -/

/-- parser.py lines 213-218: once inside the section, append each line and
update the depth by its brace count; stop with the line that brings the depth
to zero or below (that line included). -/
def sectionCollect : List (List Char) → Int → List (List Char)
  | [], _ => []
  | l :: rest, depth =>
    let d := depth + netBraces l
    if d ≤ 0 then [l] else l :: sectionCollect rest d

/-- parser.py lines 206-212: scan for the first line whose stripped form
starts with `name=`; the section starts there with that line's own brace
count as initial depth. -/
def sectionScan : List (List Char) → List Char → List (List Char)
  | [], _ => []
  | l :: rest, name =>
    if startsWith (pyStrip l) (name ++ ['=']) then l :: sectionCollect rest (netBraces l)
    else sectionScan rest name

/-- parser.py 199-220, `extract_section` on the file's lines (each line keeps
its trailing newline, as Python's file iteration yields them). -/
def extract_section (ls : List (List Char)) (name : List Char) : List Char :=
  (sectionScan ls name).flatten

/-! ## find_country_in_file (generate_report.py 347-397) -/

/-- generate_report.py line 378: the marker test
`country_name="TAG" in line or flag=TAG in line`. -/
def isMarkerLine (l tag : List Char) : Bool :=
  containsSub l ("country_name=\"".toList ++ tag ++ ['"']) ||
    containsSub l ("flag=".toList ++ tag)

/-- generate_report.py lines 373-375: append the line to the lookback window
and drop the oldest line when the window exceeds 10 lines. -/
def pushWindow (recent : List (List Char)) (l : List Char) : List (List Char) :=
  let r := recent ++ [l]
  if r.length > 10 then r.drop 1 else r

/-- generate_report.py lines 380-381: `len(line) - len(line.lstrip(tab))`,
the number of leading tab characters. -/
def indentTabs (l : List Char) : Nat :=
  (l.takeWhile (fun c => c == '\t')).length

/-- generate_report.py line 387: a window line qualifies as the record-id
line when its tab indentation equals the target, its stripped form contains
`=\x7b` and begins with a digit. -/
def isIdLine (target : Int) (prev : List Char) : Bool :=
  (indentTabs prev : Int) == target &&
    containsSub (pyStrip prev) "=\x7b".toList &&
    (match pyStrip prev with
     | [] => false
     | c :: _ => c.isDigit)

/-- The backward `for i in range(len(recent)-1, -1, -1)` search of
generate_report.py lines 383-389: index of the last element satisfying `p`,
`none` when no element does. -/
def findBackIdx (ls : List (List Char)) (p : List Char → Bool) : Option Nat :=
  match ls with
  | [] => none
  | x :: rest =>
    match findBackIdx rest p with
    | some j => some (j + 1)
    | none => if p x then some 0 else none

/-- generate_report.py lines 379-392: on the marker line, pick the record
start from the window: the lines from the most recent qualifying id line on,
or the whole window (which ends with the marker line itself) when none
qualifies. -/
def chooseStart (recent : List (List Char)) (marker : List Char) : List (List Char) :=
  match findBackIdx recent (isIdLine ((indentTabs marker : Int) - 1)) with
  | some i => recent.drop i
  | none => recent

/-- Sum of the per-line brace counts, generate_report.py lines 385 and 392. -/
def sumNet (ls : List (List Char)) : Int :=
  (ls.map netBraces).sum

/-- generate_report.py lines 393-396 plus line 397: accumulate lines and
stop once the depth drops to zero or below; at end of input return the
accumulated lines (or `none` when nothing was ever accumulated). -/
def fcifCollect : List (List Char) → List (List Char) → Int → Option (List Char)
  | [], acc, _ => if acc.isEmpty then none else some acc.flatten
  | l :: rest, acc, depth =>
    let d := depth + netBraces l
    if d ≤ 0 then some ((acc ++ [l]).flatten)
    else fcifCollect rest (acc ++ [l]) d

/-- generate_report.py lines 371-396: the not-yet-collecting loop after the
`database=` line: push each line through the window; on the marker line
choose the start lines, initialise the depth with their total brace count and
switch to collecting. -/
def fcifScan : List (List Char) → List Char → List (List Char) → Option (List Char)
  | [], _, _ => none
  | l :: rest, tag, recent =>
    let recent2 := pushWindow recent l
    if isMarkerLine l tag then
      let ss := chooseStart recent2 l
      fcifCollect rest ss (sumNet ss)
    else fcifScan rest tag recent2

/-- generate_report.py lines 368-370: skip lines until the `database=`
declaration. -/
def fcifFindDatabase : List (List Char) → List Char → Option (List Char)
  | [], _ => none
  | l :: rest, tag =>
    if startsWith (pyStrip l) "database=".toList then fcifScan rest tag []
    else fcifFindDatabase rest tag

/-- generate_report.py 347-397, `find_country_in_file` on the file's lines:
skip to `countries=`, then to `database=`, then locate the tagged record. -/
def find_country_in_file (ls : List (List Char)) (tag : List Char) : Option (List Char) :=
  match ls with
  | [] => none
  | l :: rest =>
    if startsWith (pyStrip l) "countries=".toList then fcifFindDatabase rest tag
    else find_country_in_file rest tag

/-! ## Derived notions used by the claims -/

mutual

/-- A value tree contains no `PValue.null` anywhere. -/
def nullFree : PValue → Bool
  | .null => false
  | .dict m => nullFreeEntries m
  | .list l => nullFreeList l
  | _ => true

/-- All values of a mapping are `nullFree`. -/
def nullFreeEntries : List (List Char × PValue) → Bool
  | [] => true
  | kv :: rest => nullFree kv.2 && nullFreeEntries rest

/-- All members of a sequence are `nullFree`. -/
def nullFreeList : List PValue → Bool
  | [] => true
  | v :: rest => nullFree v && nullFreeList rest

end

/-- Every `=` in the text is followed, after whitespace and comments, by at
least one significant character (no dangling `=` at end of input). -/
def eqAlwaysFollowed : List Char → Bool
  | [] => true
  | c :: rest =>
    (if c == '=' then !(skip_ws rest).isEmpty else true) && eqAlwaysFollowed rest

/-- The values that a sequence of parsed `key = value` pairs carries for a
given key, in order. -/
def valuesOf (pairs : List (List Char × PValue)) (k : List Char) : List PValue :=
  (pairs.filter (fun kv => kv.1 = k)).map (fun kv => kv.2)

/-- Folding a sequence of parsed pairs through `insertDup`, as
`parse_dict_contents` does with the pairs it reads at one nesting level. -/
def buildDict (pairs : List (List Char × PValue)) : List (List Char × PValue) :=
  pairs.foldl (fun m kv => insertDup m kv.1 kv.2) []

/-- The effect of one `insertDup` on the entry stored under the inserted key:
a first value is stored as-is, a later one is merged by `appendDup`. -/
def dupStep (e : Option PValue) (v : PValue) : Option PValue :=
  match e with
  | none => some v
  | some old => some (appendDup old v)

/-! ## Helper lemmas -/

/-- A scan in which the depth never returns to zero consumes the whole
remaining input. -/
theorem scanBlockChars_of_neverCloses :
    ∀ (l : List Char) (d : Nat), neverCloses l d = true → scanBlockChars l d = l := by
  intro l
  induction l with
  | nil => intro d _; rfl
  | cons c rest ih =>
    intro d h
    unfold neverCloses at h
    unfold scanBlockChars
    by_cases hd : d = 0
    · rw [if_pos hd] at h; exact absurd h (by simp)
    · rw [if_neg hd] at h
      rw [if_neg hd, ih _ h]

/-- On quote-free input the naive and the quote-aware matching-brace scans
agree. -/
theorem scanBlockCharsQ_eq_of_no_quote :
    ∀ (l : List Char) (d : Nat), ¬ '"' ∈ l → scanBlockCharsQ l d = scanBlockChars l d := by
  intro l
  induction l with
  | nil => intro d _; rfl
  | cons c rest ih =>
    intro d h
    have hc : (c == '"') = false := by
      simp only [beq_eq_false_iff_ne]
      intro hcq; exact h (hcq ▸ List.mem_cons_self c rest)
    have hrest : ¬ '"' ∈ rest := fun hm => h (List.mem_cons_of_mem c hm)
    unfold scanBlockCharsQ scanBlockChars
    by_cases hd : d = 0
    · rw [if_pos hd, if_pos hd]
    · rw [if_neg hd, if_neg hd, hc]
      simp only [Bool.false_eq_true, if_false, ih _ hrest]

/-! ## Claim C3 -/

/-- C3: refuted — the claim says `parse` terminates on every input, with a
stray `\x7b` in key position making the parser consume to end of input.  In
fact on the one-character input `\x7b` the dict-contents loop repeats the
same state forever: `parse_identifier` returns an empty token without
advancing and the missing `=` makes the loop `continue` at the same position,
so the run exhausts any fuel bound (Python loops forever). -/
theorem C3_parse_nonterminating_on_brace :
    ∀ fuel, parsePdxF fuel ("\x7b".toList) = none := by
  intro fuel
  induction fuel with
  | zero => rfl
  | succ n ih =>
    unfold parsePdxF parseDictF
    simp only [parsePdxF] at ih
    exact ih

/-! ## Claim C9 -/

/-- C9: `extract_value` returns the converted first capture group when the
pattern matches and the conversion succeeds, and the caller-supplied default
when the pattern does not match or the conversion fails; the conversion
failure is absorbed (modelled by `cast` returning `none`), never propagated.
The concrete conjuncts run the two casts the scripts pass (`int`, `float`). -/
theorem C9_extract_value_contract :
    (∀ (α : Type) (cast : List Char → Option α) (dflt : α) (g : List Char) (v : α),
      cast g = some v → extract_value (some g) cast dflt = v) ∧
    (∀ (α : Type) (cast : List Char → Option α) (dflt : α) (g : List Char),
      cast g = none → extract_value (some g) cast dflt = dflt) ∧
    (∀ (α : Type) (cast : List Char → Option α) (dflt : α),
      extract_value none cast dflt = dflt) ∧
    extract_value (some ("12".toList)) pyInt 0 = 12 ∧
    extract_value (some ("1x".toList)) pyInt 7 = 7 ∧
    extract_value none pyInt 7 = 7 ∧
    extract_value (some ("2.5".toList)) pyFloat 0 = mkRat 5 2 ∧
    extract_value (some ("abc".toList)) pyFloat (mkRat 1 3) = mkRat 1 3 := by
  refine ⟨?_, ?_, ?_, rfl, rfl, rfl, rfl, rfl⟩
  · intro α cast dflt g v h
    simp [extract_value, h]
  · intro α cast dflt g h
    simp [extract_value, h]
  · intro α cast dflt
    rfl

/-- Witness for C9: the contract applied at the concrete cast `pyInt` on the
group `"3"` with default `0`. -/
theorem C9_extract_value_contract_witness :
    extract_value (some ("3".toList)) pyInt 0 = 3 :=
  C9_extract_value_contract.1 Int pyInt 0 ("3".toList) 3 (by rfl)

/-! ## Claim C10 -/

/-- C10: when `key=\x7b` occurs but the brace depth never returns to zero
before end of input, `extract_block` returns the remainder of the text after
the opening brace minus its final character (`text[start:pos-1]` with
`pos = len(text)`), even though that character is not a closing brace.  The
concrete conjunct: on `k=\x7bab` the returned block is `a`, silently losing
the `b`. -/
theorem C10_extract_block_truncation :
    (∀ (text key : List Char) (i : Nat),
      findSub text (key ++ "=\x7b".toList) = some i →
      neverCloses (text.drop (i + key.length + 2)) 1 = true →
      extract_block text key = (text.drop (i + key.length + 2)).dropLast) ∧
    extract_block ("k=\x7bab".toList) ("k".toList) = ['a'] := by
  constructor
  · intro text key i hfind hnc
    unfold extract_block
    rw [hfind]
    show (scanBlockChars (text.drop (i + key.length + 2)) 1).dropLast
      = (text.drop (i + key.length + 2)).dropLast
    rw [scanBlockChars_of_neverCloses _ _ hnc]
  · rfl

/-- Witness for C10: the truncation law applied to the concrete input
`k=\x7bab` (match at index 0, scan never closes). -/
theorem C10_extract_block_truncation_witness :
    extract_block ("k=\x7bab".toList) ("k".toList)
      = (("k=\x7bab".toList).drop 3).dropLast :=
  C10_extract_block_truncation.1 ("k=\x7bab".toList) ("k".toList) 0 (by rfl) (by rfl)

/-! ## Claim C7 -/

/-- Counterexample for C7: `extract_block`'s scan does NOT skip braces inside
quoted strings, unlike the parser's block-kind detector.  On
`k=\x7b a="\x7d" b=2 \x7d` the naive scan stops at the quoted `\x7d` and
returns ` a="`, while the detector-style quote-aware scan
(`extract_block_spec`, the spec-side reading of the claim) returns the whole
block ` a="\x7d" b=2 `. -/
theorem C7_extract_block_counterexample :
    extract_block ("k=\x7b a=\"\x7d\" b=2 \x7d".toList) ("k".toList) = " a=\"".toList ∧
    extract_block_spec ("k=\x7b a=\"\x7d\" b=2 \x7d".toList) ("k".toList)
      = " a=\"\x7d\" b=2 ".toList ∧
    extract_block ("k=\x7b a=\"\x7d\" b=2 \x7d".toList) ("k".toList)
      ≠ extract_block_spec ("k=\x7b a=\"\x7d\" b=2 \x7d".toList) ("k".toList) := by
  refine ⟨rfl, rfl, ?_⟩
  intro h
  exact absurd (congrArg List.length h) (by decide)

/-- C7 amended: `extract_block` returns the empty string when `key=\x7b` does
not occur, and otherwise the substring strictly between the opening brace of
the first occurrence and the brace found by a naive depth-counting scan that
does not skip quoted strings; that scan agrees with the parser's quote-aware
detector scan on any text containing no quote character. -/
theorem C7_extract_block_amended :
    (∀ text key : List Char,
      findSub text (key ++ "=\x7b".toList) = none → extract_block text key = []) ∧
    (∀ text key : List Char, ¬ '"' ∈ text →
      extract_block text key = extract_block_spec text key) ∧
    extract_block ("a=1 k=\x7b b=\x7bc=1\x7d \x7d z=3".toList) ("k".toList)
      = " b=\x7bc=1\x7d ".toList := by
  refine ⟨?_, ?_, rfl⟩
  · intro text key h
    unfold extract_block
    rw [h]
  · intro text key h
    unfold extract_block extract_block_spec
    cases hfind : findSub text (key ++ "=\x7b".toList) with
    | none => rfl
    | some i =>
      show (scanBlockChars (text.drop (i + key.length + 2)) 1).dropLast
        = (scanBlockCharsQ (text.drop (i + key.length + 2)) 1).dropLast
      rw [scanBlockCharsQ_eq_of_no_quote]
      intro hmem
      exact h (List.mem_of_mem_drop hmem)

/-- Witness for C7: the amended contract applied at concrete inputs — a text
without the key (empty result) and a quote-free text (both scans agree). -/
theorem C7_extract_block_amended_witness :
    extract_block ("nothing".toList) ("k".toList) = [] ∧
    extract_block ("k=\x7b a=1 \x7d".toList) ("k".toList)
      = extract_block_spec ("k=\x7b a=1 \x7d".toList) ("k".toList) :=
  ⟨C7_extract_block_amended.1 ("nothing".toList) ("k".toList) (by rfl),
   C7_extract_block_amended.2.1 ("k=\x7b a=1 \x7d".toList) ("k".toList) (by decide)⟩

/-! ## Claim C4 -/

/-- Counterexample for C4: the locator's per-line depth tracking counts
braces inside quoted strings.  For the record `id=\x7b / x="\x7d" / \x7d`
(three lines, a lone closing brace inside a quoted value) the extracted span
is only the first two lines, although the quote-aware scan shows the record's
real closing brace is on the third line: depth-counting reached zero at the
quoted brace, not at the record's real closing brace. -/
theorem C4_locator_quoted_brace_counterexample :
    extract_section ["id=\x7b\n".toList, " x=\"\x7d\"\n".toList, "\x7d\n".toList]
        ("id".toList)
      = ("id=\x7b\n".toList ++ " x=\"\x7d\"\n".toList) ∧
    ("id=\x7b\n".toList ++ " x=\"\x7d\"\n".toList)
      ≠ ("id=\x7b\n".toList ++ " x=\"\x7d\"\n".toList ++ "\x7d\n".toList) ∧
    scanBlockCharsQ (("id=\x7b\n x=\"\x7d\"\n\x7d\n".toList).drop 4) 1
      = "\n x=\"\x7d\"\n\x7d".toList := by
  refine ⟨rfl, ?_, rfl⟩
  intro h
  exact absurd (congrArg List.length h) (by decide)

/-- C4 amended: the per-line tracker counts braces inside quoted strings too,
so it extracts the whole record exactly when the quoted braces are balanced,
as in the fixture `id=\x7b name="a\x7bb\x7dc" x=1 \x7d`: there the extracted
span is the whole record, the line's net brace count is the structural zero,
and the quote-aware scan reaches depth zero exactly at the record's real
closing brace (offset 22, the final brace), not at the quoted one. -/
theorem C4_locator_depth_fixture :
    extract_section ["id=\x7b name=\"a\x7bb\x7dc\" x=1 \x7d\n".toList] ("id".toList)
      = "id=\x7b name=\"a\x7bb\x7dc\" x=1 \x7d\n".toList ∧
    netBraces ("id=\x7b name=\"a\x7bb\x7dc\" x=1 \x7d\n".toList) = 0 ∧
    scanBlockCharsQ (("id=\x7b name=\"a\x7bb\x7dc\" x=1 \x7d\n".toList).drop 4) 1
      = " name=\"a\x7bb\x7dc\" x=1 \x7d".toList ∧
    ("id=\x7b name=\"a\x7bb\x7dc\" x=1 \x7d\n".toList).get? 22 = some '\x7d' := by
  exact ⟨rfl, rfl, rfl, rfl⟩

/-! ## Claim C2 -/

theorem lookupVal_map_update (m : List (List Char × PValue)) (k : List Char)
    (g : PValue → PValue) :
    lookupVal (m.map (fun kv => if kv.1 = k then (kv.1, g kv.2) else kv)) k
      = (lookupVal m k).map g := by
  induction m with
  | nil => rfl
  | cons kv rest ih =>
    by_cases hk : kv.1 = k
    · simp [lookupVal, hk]
    · simp [lookupVal, hk, ih]

theorem lookupVal_map_update_other (m : List (List Char × PValue)) (k k2 : List Char)
    (g : PValue → PValue) (hne : k2 ≠ k) :
    lookupVal (m.map (fun kv => if kv.1 = k2 then (kv.1, g kv.2) else kv)) k
      = lookupVal m k := by
  induction m with
  | nil => rfl
  | cons kv rest ih =>
    rw [List.map_cons]
    by_cases hk2 : kv.1 = k2
    · have hk : kv.1 ≠ k := fun h => hne (hk2 ▸ h)
      rw [if_pos hk2]
      show (if kv.1 = k then _ else _) = _
      rw [if_neg hk]
      show _ = (if kv.1 = k then some kv.2 else lookupVal rest k)
      rw [if_neg hk]
      exact ih
    · rw [if_neg hk2]
      show (if kv.1 = k then some kv.2 else _) = (if kv.1 = k then some kv.2 else _)
      by_cases hk : kv.1 = k
      · rw [if_pos hk, if_pos hk]
      · rw [if_neg hk, if_neg hk]
        exact ih

theorem lookupVal_append_single (m : List (List Char × PValue)) (k k2 : List Char)
    (v : PValue) :
    lookupVal (m ++ [(k2, v)]) k
      = match lookupVal m k with
        | some x => some x
        | none => if k2 = k then some v else none := by
  induction m with
  | nil => simp [lookupVal]
  | cons kv rest ih =>
    by_cases hk : kv.1 = k
    · simp [lookupVal, hk]
    · simp [lookupVal, hk, ih]

theorem lookupVal_insertDup_self (m : List (List Char × PValue)) (k : List Char)
    (v : PValue) :
    lookupVal (insertDup m k v) k = dupStep (lookupVal m k) v := by
  unfold insertDup
  cases h : lookupVal m k with
  | none =>
    simp only [Option.isSome_none, Bool.false_eq_true, if_false]
    rw [lookupVal_append_single, h]
    simp [dupStep]
  | some old =>
    simp only [Option.isSome_some, if_true]
    have hmu := lookupVal_map_update m k (fun w => appendDup w v)
    rw [h] at hmu
    exact hmu

theorem lookupVal_insertDup_other (m : List (List Char × PValue)) (k k2 : List Char)
    (v : PValue) (hne : k2 ≠ k) :
    lookupVal (insertDup m k2 v) k = lookupVal m k := by
  unfold insertDup
  cases h : lookupVal m k2 with
  | none =>
    simp only [Option.isSome_none, Bool.false_eq_true, if_false]
    rw [lookupVal_append_single, if_neg hne]
    cases lookupVal m k <;> rfl
  | some old =>
    simp only [Option.isSome_some, if_true]
    exact lookupVal_map_update_other m k k2 (fun w => appendDup w v) hne

theorem valuesOf_cons (k2 : List Char) (v : PValue)
    (pairs : List (List Char × PValue)) (k : List Char) :
    valuesOf ((k2, v) :: pairs) k
      = if k2 = k then v :: valuesOf pairs k else valuesOf pairs k := by
  by_cases h : k2 = k <;> simp [valuesOf, h]

theorem lookupVal_foldl_insertDup :
    ∀ (pairs : List (List Char × PValue)) (m : List (List Char × PValue)) (k : List Char),
    lookupVal (pairs.foldl (fun m kv => insertDup m kv.1 kv.2) m) k
      = (valuesOf pairs k).foldl dupStep (lookupVal m k) := by
  intro pairs
  induction pairs with
  | nil => intro m k; rfl
  | cons kv rest ih =>
    intro m k
    rw [List.foldl_cons, ih, valuesOf_cons]
    by_cases h : kv.1 = k
    · rw [if_pos h, List.foldl_cons, h, lookupVal_insertDup_self]
    · rw [if_neg h, lookupVal_insertDup_other _ _ _ _ h]

theorem foldl_dupStep_list (w : List PValue) :
    ∀ vs : List PValue, vs.foldl dupStep (some (.list w)) = some (.list (w ++ vs)) := by
  intro vs
  induction vs generalizing w with
  | nil => simp
  | cons v rest ih =>
    rw [List.foldl_cons]
    show rest.foldl dupStep (some (appendDup (.list w) v)) = _
    rw [show appendDup (.list w) v = .list (w ++ [v]) from rfl, ih]
    simp

/-- Counterexample for C2: when the first value stored under a key is itself
a Sequence, a later duplicate is appended INTO it rather than forming the
two-element sequence of the claim: `a=\x7b 1 2 \x7d a=3` parses to
`a = [1, 2, 3]`, not to `a = [[1, 2], 3]`. -/
theorem C2_duplicate_key_counterexample :
    parsePdxF 20 ("a=\x7b 1 2 \x7d a=3".toList)
      = some [("a".toList, .list [.int 1, .int 2, .int 3])] ∧
    PValue.list [.int 1, .int 2, .int 3]
      ≠ PValue.list [.list [.int 1, .int 2], .int 3] := by
  refine ⟨rfl, ?_⟩
  intro h
  rw [PValue.list.injEq, List.cons.injEq] at h
  cases h.1

/-- C2 amended: at every nesting level, a key occurring `n ≥ 2` times with
values `v1 .. vn` ends up mapped to the sequence `[v1, ..., vn]` PROVIDED the
first value `v1` is not itself a sequence (when it is, later values are
appended into it); a key occurring exactly once keeps its scalar value.  The
concrete conjuncts are the claim's own examples, which satisfy the proviso:
`parse("a=1 a=2 a=3") = \x7b"a": [1,2,3]\x7d` and
`parse("a=1") = \x7b"a": 1\x7d`. -/
theorem C2_duplicate_key_coalescing :
    (∀ (pairs : List (List Char × PValue)) (k : List Char) (v1 : PValue) (vs : List PValue),
      valuesOf pairs k = v1 :: vs → vs ≠ [] → (∀ items, v1 ≠ .list items) →
      lookupVal (buildDict pairs) k = some (.list (v1 :: vs))) ∧
    (∀ (pairs : List (List Char × PValue)) (k : List Char) (v1 : PValue),
      valuesOf pairs k = [v1] → lookupVal (buildDict pairs) k = some v1) ∧
    parsePdxF 20 ("a=1 a=2 a=3".toList)
      = some [("a".toList, .list [.int 1, .int 2, .int 3])] ∧
    parsePdxF 20 ("a=1".toList) = some [("a".toList, .int 1)] := by
  refine ⟨?_, ?_, rfl, rfl⟩
  · intro pairs k v1 vs hvals hvs hnl
    unfold buildDict
    rw [lookupVal_foldl_insertDup, hvals]
    show (vs.foldl dupStep (dupStep none v1)) = _
    cases vs with
    | nil => exact absurd rfl hvs
    | cons v2 vs2 =>
      rw [List.foldl_cons]
      show vs2.foldl dupStep (some (appendDup v1 v2)) = _
      have happ : appendDup v1 v2 = .list [v1, v2] := by
        cases v1 with
        | list items => exact absurd rfl (hnl items)
        | _ => rfl
      rw [happ, foldl_dupStep_list]
      simp
  · intro pairs k v1 hvals
    unfold buildDict
    rw [lookupVal_foldl_insertDup, hvals]
    rfl

/-- Witness for C2: the coalescing law applied to the concrete pair sequence
`a=1, a=2, a=3`, and the single-occurrence law applied to `a=1`. -/
theorem C2_duplicate_key_coalescing_witness :
    lookupVal (buildDict [("a".toList, .int 1), ("a".toList, .int 2), ("a".toList, .int 3)])
        ("a".toList)
      = some (.list [.int 1, .int 2, .int 3]) ∧
    lookupVal (buildDict [("a".toList, .int 1)]) ("a".toList) = some (.int 1) :=
  ⟨C2_duplicate_key_coalescing.1
      [("a".toList, .int 1), ("a".toList, .int 2), ("a".toList, .int 3)]
      ("a".toList) (.int 1) [.int 2, .int 3] (by rfl) (by simp)
      (fun items h => by cases h),
   C2_duplicate_key_coalescing.2.1 [("a".toList, .int 1)] ("a".toList) (.int 1) (by rfl)⟩

/-! ## Claim C1 -/

/-- C1: `parse_block` classifies a block by the depth-0 lookahead only: after
the opening brace and whitespace, an immediate `\x7d` (or end of input) gives
the empty mapping; otherwise the block parses as a mapping exactly when
`scan_is_dict` finds a depth-0 `=` before the block's closing brace (the
lookahead skipping nested `\x7b...\x7d` and quoted strings), and as a
sequence otherwise.  The concrete conjuncts are the claim's examples plus the
two non-leak cases: an `=` inside a quoted string and inside a nested block
does not force mapping classification. -/
theorem C1_parse_block_classification :
    (∀ (fuel : Nat) (s : List Char) (v : PValue) (r : List Char),
      s.head? = some '\x7b' → parseBlockF (fuel + 1) s = some (v, r) →
      (skip_ws (s.drop 1) = [] → v = .dict []) ∧
      (∀ c rest, skip_ws (s.drop 1) = c :: rest →
        (c = '\x7d' → v = .dict []) ∧
        (c ≠ '\x7d' → scan_is_dict (c :: rest) 0 = true → ∃ m, v = .dict m) ∧
        (c ≠ '\x7d' → scan_is_dict (c :: rest) 0 = false → ∃ l, v = .list l))) ∧
    parseBlockF 20 ("\x7b 1 2 3 \x7d".toList) = some (.list [.int 1, .int 2, .int 3], []) ∧
    parseBlockF 20 ("\x7b a=1 \x7d".toList) = some (.dict [("a".toList, .int 1)], []) ∧
    parseBlockF 20 ("\x7b a=\x7bb=1\x7d c=2 \x7d".toList)
      = some (.dict [("a".toList, .dict [("b".toList, .int 1)]), ("c".toList, .int 2)], []) ∧
    parseBlockF 20 ("\x7b \x7d".toList) = some (.dict [], []) ∧
    parseBlockF 20 ("\x7b \"a=b\" \"c\" \x7d".toList)
      = some (.list [.str ("a=b".toList), .str ("c".toList)], []) ∧
    parseBlockF 20 ("\x7b \x7ba=1\x7d \x7bb=2\x7d \x7d".toList)
      = some (.list [.dict [("a".toList, .int 1)], .dict [("b".toList, .int 2)]], []) := by
  refine ⟨?_, rfl, rfl, rfl, rfl, rfl, rfl⟩
  intro fuel s v r _ hp
  unfold parseBlockF at hp
  constructor
  · intro hsw
    rw [hsw] at hp
    have hp2 : some (PValue.dict [], ([] : List Char)) = some (v, r) := hp
    simp only [Option.some.injEq, Prod.mk.injEq] at hp2
    exact hp2.1.symm
  · intro c rest hsw
    rw [hsw] at hp
    have hp2 : (if (c == '\x7d') = true then some (PValue.dict [], rest)
        else if scan_is_dict (c :: rest) 0 = true then
          Option.map (fun q => (PValue.dict q.1, q.2)) (parseDictF fuel (c :: rest) [])
        else Option.map (fun q => (PValue.list q.1, q.2)) (parseListF fuel (c :: rest) []))
        = some (v, r) := hp
    refine ⟨?_, ?_, ?_⟩
    · intro hc
      subst hc
      have hp3 : some (PValue.dict [], rest) = some (v, r) := by
        rw [← hp2]
        rfl
      simp only [Option.some.injEq, Prod.mk.injEq] at hp3
      exact hp3.1.symm
    · intro hc hsd
      have hcb : (c == '\x7d') = false := beq_eq_false_iff_ne.mpr hc
      cases hd : parseDictF fuel (c :: rest) [] with
      | none => simp [hcb, hsd, hd] at hp2
      | some pr =>
        simp only [hcb, Bool.false_eq_true, if_false, hsd, if_true, hd,
          Option.map_some', Option.some.injEq, Prod.mk.injEq] at hp2
        exact ⟨pr.1, hp2.1.symm⟩
    · intro hc hsd
      have hcb : (c == '\x7d') = false := beq_eq_false_iff_ne.mpr hc
      cases hl : parseListF fuel (c :: rest) [] with
      | none => simp [hcb, hsd, hl] at hp2
      | some pr =>
        simp only [hcb, Bool.false_eq_true, if_false, hsd, if_true, hl,
          Option.map_some', Option.some.injEq, Prod.mk.injEq] at hp2
        exact ⟨pr.1, hp2.1.symm⟩

/-- Witness for C1: the classification law applied to the concrete block
`\x7b a=1 \x7d`, whose lookahead finds a depth-0 `=`. -/
theorem C1_parse_block_classification_witness :
    ∃ m, PValue.dict [("a".toList, PValue.int 1)] = PValue.dict m :=
  ((C1_parse_block_classification.1 19 ("\x7b a=1 \x7d".toList)
      (.dict [("a".toList, .int 1)]) [] (by rfl)
      C1_parse_block_classification.2.2.1).2
    'a' ("=1 \x7d".toList) (by rfl)).2.1 (by decide) (by rfl)

/-! ## Claim C5 -/

theorem findBackIdx_none_spec :
    ∀ (ls : List (List Char)) (p : List Char → Bool),
    findBackIdx ls p = none → ∀ j (hj : j < ls.length), p (ls.get ⟨j, hj⟩) = false := by
  intro ls
  induction ls with
  | nil => intro p _ j hj; cases hj
  | cons x rest ih =>
    intro p h j hj
    unfold findBackIdx at h
    cases hr : findBackIdx rest p with
    | some m => rw [hr] at h; cases h
    | none =>
      rw [hr] at h
      have hpx : p x = false := by
        by_cases hx : p x = true
        · rw [if_pos hx] at h; cases h
        · exact Bool.eq_false_iff.mpr (fun hc => hx hc)
      cases j with
      | zero => exact hpx
      | succ j2 =>
        exact ih p hr j2 (Nat.lt_of_succ_lt_succ hj)

theorem findBackIdx_some_spec :
    ∀ (ls : List (List Char)) (p : List Char → Bool) (i : Nat),
    findBackIdx ls p = some i →
    ∃ h : i < ls.length, p (ls.get ⟨i, h⟩) = true ∧
      ∀ j (hj : j < ls.length), i < j → p (ls.get ⟨j, hj⟩) = false := by
  intro ls
  induction ls with
  | nil => intro p i h; cases h
  | cons x rest ih =>
    intro p i h
    unfold findBackIdx at h
    cases hr : findBackIdx rest p with
    | some m =>
      rw [hr] at h
      simp only [Option.some.injEq] at h
      subst h
      obtain ⟨hm, hpm, hmax⟩ := ih p m hr
      refine ⟨Nat.succ_lt_succ hm, hpm, ?_⟩
      intro j hj hgt
      cases j with
      | zero => cases hgt
      | succ j2 =>
        exact hmax j2 (Nat.lt_of_succ_lt_succ hj) (Nat.lt_of_succ_lt_succ hgt)
    | none =>
      rw [hr] at h
      by_cases hx : p x = true
      · rw [if_pos hx] at h
        simp only [Option.some.injEq] at h
        subst h
        refine ⟨Nat.succ_pos _, hx, ?_⟩
        intro j hj hgt
        cases j with
        | zero => cases hgt
        | succ j2 =>
          exact findBackIdx_none_spec rest p hr j2 (Nat.lt_of_succ_lt_succ hj)
      · rw [if_neg hx] at h
        cases h

/-- C5: on seeing the marker line the locator recovers the record start from
a sliding window of the last (at most) 10 lines: the window always holds the
most recent `min(seen + 1, 10)` lines; among them the chosen start is the
most recent line whose tab indentation is one less than the marker's and
whose stripped form contains `=\x7b` and begins with a digit; when no window
line qualifies, the whole window (which ends with the marker line itself) is
used instead of failing.  The two concrete conjuncts run the full locator:
once recovering the `1=\x7b` record-id line, once falling back to the window. -/
theorem C5_lookback_window_recovery :
    (∀ (recent : List (List Char)) (l : List Char), recent.length ≤ 10 →
      (pushWindow recent l).length = min (recent.length + 1) 10 ∧
      (pushWindow recent l) <:+ (recent ++ [l])) ∧
    (∀ (recent : List (List Char)) (marker : List Char) (i : Nat),
      findBackIdx recent (isIdLine ((indentTabs marker : Int) - 1)) = some i →
      ∃ h : i < recent.length,
        isIdLine ((indentTabs marker : Int) - 1) (recent.get ⟨i, h⟩) = true ∧
        (∀ j (hj : j < recent.length), i < j →
          isIdLine ((indentTabs marker : Int) - 1) (recent.get ⟨j, hj⟩) = false) ∧
        chooseStart recent marker = recent.drop i) ∧
    (∀ (recent : List (List Char)) (marker : List Char),
      findBackIdx recent (isIdLine ((indentTabs marker : Int) - 1)) = none →
      chooseStart recent marker = recent ∧
      ∀ j (hj : j < recent.length),
        isIdLine ((indentTabs marker : Int) - 1) (recent.get ⟨j, hj⟩) = false) ∧
    find_country_in_file
      ["countries=\x7b\n".toList, "database=\x7b\n".toList, "\t1=\x7b\n".toList,
       "\t\tcountry_name=\"FRA\"\n".toList, "\t\tx=1\n".toList, "\t\x7d\n".toList,
       "\x7d\n".toList] ("FRA".toList)
      = some ("\t1=\x7b\n".toList ++ "\t\tcountry_name=\"FRA\"\n".toList
          ++ "\t\tx=1\n".toList ++ "\t\x7d\n".toList) ∧
    find_country_in_file
      ["countries=\x7b\n".toList, "database=\x7b\n".toList, "junk\n".toList,
       "\tcountry_name=\"SWE\"\n".toList, "\x7d\n".toList] ("SWE".toList)
      = some ("junk\n".toList ++ "\tcountry_name=\"SWE\"\n".toList
          ++ "\x7d\n".toList) := by
  refine ⟨?_, ?_, ?_, rfl, rfl⟩
  · intro recent l hlen
    unfold pushWindow
    have hL : (recent ++ [l]).length = recent.length + 1 := by
      simp
    by_cases h10 : (recent ++ [l]).length > 10
    · rw [if_pos h10]
      rw [hL] at h10
      constructor
      · rw [List.length_drop, hL]
        omega
      · exact List.drop_suffix 1 (recent ++ [l])
    · rw [if_neg h10]
      rw [hL] at h10
      constructor
      · rw [hL]
        omega
      · exact List.suffix_refl _
  · intro recent marker i h
    obtain ⟨hlt, hp, hmax⟩ := findBackIdx_some_spec recent _ i h
    refine ⟨hlt, hp, hmax, ?_⟩
    unfold chooseStart
    rw [h]
  · intro recent marker h
    refine ⟨?_, findBackIdx_none_spec recent _ h⟩
    unfold chooseStart
    rw [h]

/-- Witness for C5: the window-growth law and the chooser law applied at
concrete inputs — a two-line window whose first line is the record-id line. -/
theorem C5_lookback_window_recovery_witness :
    (pushWindow [] ("\t1=\x7b\n".toList)).length = min 1 10 ∧
    chooseStart ["\t1=\x7b\n".toList, "\t\tcountry_name=\"X\"\n".toList]
        ("\t\tcountry_name=\"X\"\n".toList)
      = List.drop 0 ["\t1=\x7b\n".toList, "\t\tcountry_name=\"X\"\n".toList] := by
  constructor
  · exact (C5_lookback_window_recovery.1 [] ("\t1=\x7b\n".toList) (by decide)).1
  · obtain ⟨hlt, hp, hmax, hcs⟩ :=
      C5_lookback_window_recovery.2.1
        ["\t1=\x7b\n".toList, "\t\tcountry_name=\"X\"\n".toList]
        ("\t\tcountry_name=\"X\"\n".toList) 0 (by decide)
    exact hcs

/-! ## Claim C6 -/

theorem ne_of_isDigit (c d : Char) (h : c.isDigit = true) (hd : d.isDigit = false) :
    c ≠ d := by
  intro hcd
  rw [hcd, hd] at h
  exact Bool.noConfusion h

theorem beq_false_of_isDigit (c d : Char) (h : c.isDigit = true) (hd : d.isDigit = false) :
    (c == d) = false :=
  beq_eq_false_iff_ne.mpr (ne_of_isDigit c d h hd)

theorem isPdxWs_false_of_isDigit (c : Char) (h : c.isDigit = true) : isPdxWs c = false := by
  unfold isPdxWs
  rw [beq_false_of_isDigit c ' ' h (by decide), beq_false_of_isDigit c '\t' h (by decide),
    beq_false_of_isDigit c '\n' h (by decide), beq_false_of_isDigit c '\r' h (by decide)]
  rfl

theorem isIdentBreak_false_of_isDigit (c : Char) (h : c.isDigit = true) :
    isIdentBreak c = false := by
  unfold isIdentBreak
  rw [isPdxWs_false_of_isDigit c h, beq_false_of_isDigit c '=' h (by decide),
    beq_false_of_isDigit c '\x7b' h (by decide), beq_false_of_isDigit c '\x7d' h (by decide),
    beq_false_of_isDigit c '#' h (by decide)]
  rfl

theorem skip_ws_cons_sig (c : Char) (t : List Char)
    (h1 : isPdxWs c = false) (h2 : (c == '#') = false) :
    skip_ws (c :: t) = c :: t := by
  unfold skip_ws
  rw [h1, h2]
  rfl

theorem scan_ident_all_nonbreak :
    ∀ (l : List Char), (∀ c ∈ l, isIdentBreak c = false) → scan_ident l = (l, []) := by
  intro l
  induction l with
  | nil => intro _; rfl
  | cons c t ih =>
    intro h
    unfold scan_ident
    rw [h c (List.mem_cons_self c t)]
    simp only [Bool.false_eq_true, if_false]
    rw [ih (fun x hx => h x (List.mem_cons_of_mem c hx))]

theorem scan_string_plain :
    ∀ (cs : List Char), ¬ '"' ∈ cs → ¬ '\\' ∈ cs → scan_string (cs ++ ['"']) = (cs, []) := by
  intro cs
  induction cs with
  | nil => intro _ _; rfl
  | cons c t ih =>
    intro hq hb
    have hcq : (c == '"') = false :=
      beq_eq_false_iff_ne.mpr (fun h => hq (h ▸ List.mem_cons_self c t))
    have hcb : (c == '\\') = false :=
      beq_eq_false_iff_ne.mpr (fun h => hb (h ▸ List.mem_cons_self c t))
    show scan_string (c :: (t ++ ['"'])) = (c :: t, [])
    unfold scan_string
    rw [hcq, hcb]
    simp only [Bool.false_eq_true, if_false]
    rw [ih (fun h => hq (List.mem_cons_of_mem c h)) (fun h => hb (List.mem_cons_of_mem c h))]

theorem takeWhile_digits_append (l : List Char) (x : Char) (r : List Char)
    (hl : ∀ c ∈ l, c.isDigit = true) (hx : x.isDigit = false) :
    (l ++ x :: r).takeWhile Char.isDigit = l ∧
    (l ++ x :: r).dropWhile Char.isDigit = x :: r := by
  induction l with
  | nil =>
    constructor
    · show (x :: r).takeWhile Char.isDigit = []
      rw [List.takeWhile_cons, hx]
      rfl
    · show (x :: r).dropWhile Char.isDigit = x :: r
      rw [List.dropWhile_cons, hx]
      rfl
  | cons c t ih =>
    have hc : c.isDigit = true := hl c (List.mem_cons_self c t)
    obtain ⟨ht, hd⟩ := ih (fun y hy => hl y (List.mem_cons_of_mem c hy))
    constructor
    · show ((c :: (t ++ x :: r)).takeWhile Char.isDigit) = c :: t
      rw [List.takeWhile_cons, hc]
      simp only [if_true]
      rw [ht]
    · show ((c :: (t ++ x :: r)).dropWhile Char.isDigit) = x :: r
      rw [List.dropWhile_cons, hc]
      simp only [if_true]
      rw [hd]

theorem contains_false_of_all_digits (l : List Char) (x : Char)
    (hl : ∀ c ∈ l, c.isDigit = true) (hx : x.isDigit = false) :
    l.contains x = false := by
  rw [Bool.eq_false_iff]
  intro hc
  have hmem : x ∈ l := by
    rw [List.contains_iff_exists_mem_beq] at hc
    obtain ⟨y, hy, hxy⟩ := hc
    rw [beq_iff_eq] at hxy
    exact hxy ▸ hy
  rw [hl x hmem] at hx
  exact Bool.noConfusion hx

theorem ne_yes_no_of_digit_head (c : Char) (t : List Char) (h : c.isDigit = true) :
    (c :: t) ≠ "yes".toList ∧ (c :: t) ≠ "no".toList := by
  constructor
  · intro heq
    rw [show "yes".toList = 'y' :: "es".toList from rfl, List.cons.injEq] at heq
    exact ne_of_isDigit c 'y' h (by decide) heq.1
  · intro heq
    rw [show "no".toList = 'n' :: "o".toList from rfl, List.cons.injEq] at heq
    exact ne_of_isDigit c 'n' h (by decide) heq.1

theorem identValue_digits (ds : List Char) (hne : ds ≠ [])
    (hd : ∀ c ∈ ds, c.isDigit = true) :
    identValue ds = .int (digitsVal ds) := by
  obtain ⟨c, t, rfl⟩ : ∃ c t, ds = c :: t := by
    cases ds with
    | nil => exact absurd rfl hne
    | cons c t => exact ⟨c, t, rfl⟩
  have hc : c.isDigit = true := hd c (List.mem_cons_self c t)
  obtain ⟨hyes, hno⟩ := ne_yes_no_of_digit_head c t hc
  unfold identValue
  rw [if_neg hyes, if_neg hno,
    contains_false_of_all_digits (c :: t) '.' hd (by decide)]
  simp only [Bool.false_eq_true, if_false]
  simp only [pyInt]
  rw [beq_false_of_isDigit c '-' hc (by decide), beq_false_of_isDigit c '+' hc (by decide)]
  simp only [Bool.false_eq_true, if_false]
  rw [if_pos (List.all_eq_true.mpr (fun x hx => hd x hx))]

theorem identValue_float (ds1 ds2 : List Char) (h1 : ds1 ≠ []) (_h2 : ds2 ≠ [])
    (hd1 : ∀ c ∈ ds1, c.isDigit = true) (hd2 : ∀ c ∈ ds2, c.isDigit = true) :
    identValue (ds1 ++ '.' :: ds2)
      = .float (mkRat (digitsVal ds1 * 10 ^ ds2.length + digitsVal ds2) (10 ^ ds2.length)) := by
  obtain ⟨c, t, rfl⟩ : ∃ c t, ds1 = c :: t := by
    cases ds1 with
    | nil => exact absurd rfl h1
    | cons c t => exact ⟨c, t, rfl⟩
  have hc : c.isDigit = true := hd1 c (List.mem_cons_self c t)
  have hyes : (c :: t) ++ '.' :: ds2 ≠ "yes".toList := by
    intro heq
    rw [List.cons_append, show "yes".toList = 'y' :: "es".toList from rfl,
      List.cons.injEq] at heq
    exact ne_of_isDigit c 'y' hc (by decide) heq.1
  have hno : (c :: t) ++ '.' :: ds2 ≠ "no".toList := by
    intro heq
    rw [List.cons_append, show "no".toList = 'n' :: "o".toList from rfl,
      List.cons.injEq] at heq
    exact ne_of_isDigit c 'n' hc (by decide) heq.1
  have hcont : ((c :: t) ++ '.' :: ds2).contains '.' = true := by
    rw [List.contains_iff_exists_mem_beq]
    exact ⟨'.', List.mem_append_right _ (List.mem_cons_self '.' ds2), by decide⟩
  unfold identValue
  rw [if_neg hyes, if_neg hno, hcont]
  simp only [if_true]
  have hpf : pyFloat ((c :: t) ++ '.' :: ds2)
      = pyFloatCore ((c :: t) ++ '.' :: ds2) := by
    rw [List.cons_append]
    simp only [pyFloat]
    rw [beq_false_of_isDigit c '-' hc (by decide), beq_false_of_isDigit c '+' hc (by decide)]
    simp only [Bool.false_eq_true, if_false]
  rw [hpf]
  obtain ⟨htake, hdrop⟩ := takeWhile_digits_append (c :: t) '.' ds2 hd1 (by decide)
  simp only [pyFloatCore, htake, hdrop]
  have hcond : ds2.all Char.isDigit = true ∧ ((c :: t) ≠ [] ∨ ds2 ≠ []) :=
    ⟨List.all_eq_true.mpr (fun x hx => hd2 x hx), Or.inl (List.cons_ne_nil c t)⟩
  rw [if_pos hcond]
  rfl

theorem parseValueF_bare_token (f : Nat) (c : Char) (t : List Char)
    (hws : isPdxWs c = false) (hhash : (c == '#') = false)
    (hquote : (c == '"') = false) (hbrace : (c == '\x7b') = false)
    (hbreak : ∀ x ∈ c :: t, isIdentBreak x = false) :
    parseValueF (f + 1) (c :: t) = some (identValue (c :: t), []) := by
  unfold parseValueF
  rw [skip_ws_cons_sig c t hws hhash]
  show (if (c == '"') = true then _ else if (c == '\x7b') = true then _
    else some (identValue (scan_ident (c :: t)).1, (scan_ident (c :: t)).2)) = _
  rw [hquote, hbrace]
  simp only [Bool.false_eq_true, if_false]
  rw [scan_ident_all_nonbreak (c :: t) hbreak]

theorem parsePdx_single_pair (f : Nat) (v : List Char) (val : PValue)
    (hpv : parseValueF (f + 1) v = some (val, [])) :
    parsePdxF (f + 2) ('k' :: '=' :: v) = some [(['k'], val)] := by
  unfold parsePdxF
  rw [show parseDictF (f + 2) ('k' :: '=' :: v) []
      = (match parseValueF (f + 1) v with
         | none => none
         | some (v2, s3) => parseDictF (f + 1) s3 (insertDup [] ['k'] v2)) from rfl, hpv]
  rfl

/-- C6: scalar round trips — for `v` among `yes`, `no`, a decimal integer
literal, a decimal float literal containing `.`, and a quoted string (without
inner quotes or backslashes), `parse("k=" + v)` maps `k` to the corresponding
typed value: the boolean, the integer, the exact rational value of the
decimal literal, or the string contents without the quotes. -/
theorem C6_scalar_round_trip :
    (∀ f : Nat, parsePdxF (f + 2) ('k' :: '=' :: "yes".toList)
      = some [(['k'], .bool true)]) ∧
    (∀ f : Nat, parsePdxF (f + 2) ('k' :: '=' :: "no".toList)
      = some [(['k'], .bool false)]) ∧
    (∀ (f : Nat) (ds : List Char), ds ≠ [] → (∀ c ∈ ds, c.isDigit = true) →
      parsePdxF (f + 2) ('k' :: '=' :: ds) = some [(['k'], .int (digitsVal ds))]) ∧
    (∀ (f : Nat) (ds1 ds2 : List Char), ds1 ≠ [] → ds2 ≠ [] →
      (∀ c ∈ ds1, c.isDigit = true) → (∀ c ∈ ds2, c.isDigit = true) →
      parsePdxF (f + 2) ('k' :: '=' :: (ds1 ++ '.' :: ds2))
        = some [(['k'], .float (mkRat (digitsVal ds1 * 10 ^ ds2.length + digitsVal ds2)
            (10 ^ ds2.length)))]) ∧
    (∀ (f : Nat) (cs : List Char), ¬ '"' ∈ cs → ¬ '\\' ∈ cs →
      parsePdxF (f + 2) ('k' :: '=' :: '"' :: (cs ++ ['"']))
        = some [(['k'], .str cs)]) := by
  refine ⟨?_, ?_, ?_, ?_, ?_⟩
  · intro f
    exact parsePdx_single_pair f ("yes".toList) (.bool true) rfl
  · intro f
    exact parsePdx_single_pair f ("no".toList) (.bool false) rfl
  · intro f ds hne hd
    obtain ⟨c, t, rfl⟩ : ∃ c t, ds = c :: t := by
      cases ds with
      | nil => exact absurd rfl hne
      | cons c t => exact ⟨c, t, rfl⟩
    have hc : c.isDigit = true := hd c (List.mem_cons_self c t)
    have hval := parseValueF_bare_token f c t (isPdxWs_false_of_isDigit c hc)
      (beq_false_of_isDigit c '#' hc (by decide))
      (beq_false_of_isDigit c '"' hc (by decide))
      (beq_false_of_isDigit c '\x7b' hc (by decide))
      (fun x hx => isIdentBreak_false_of_isDigit x (hd x hx))
    rw [identValue_digits (c :: t) hne hd] at hval
    exact parsePdx_single_pair f (c :: t) _ hval
  · intro f ds1 ds2 h1 h2 hd1 hd2
    obtain ⟨c, t, rfl⟩ : ∃ c t, ds1 = c :: t := by
      cases ds1 with
      | nil => exact absurd rfl h1
      | cons c t => exact ⟨c, t, rfl⟩
    have hc : c.isDigit = true := hd1 c (List.mem_cons_self c t)
    have hbreak : ∀ x ∈ (c :: t) ++ '.' :: ds2, isIdentBreak x = false := by
      intro x hx
      rcases List.mem_append.mp hx with hx1 | hx2
      · exact isIdentBreak_false_of_isDigit x (hd1 x hx1)
      · rcases List.mem_cons.mp hx2 with hdot | hx3
        · rw [hdot]; rfl
        · exact isIdentBreak_false_of_isDigit x (hd2 x hx3)
    have hshape : (c :: t) ++ '.' :: ds2 = c :: (t ++ '.' :: ds2) :=
      List.cons_append c t ('.' :: ds2)
    have hval := parseValueF_bare_token f c (t ++ '.' :: ds2)
      (isPdxWs_false_of_isDigit c hc)
      (beq_false_of_isDigit c '#' hc (by decide))
      (beq_false_of_isDigit c '"' hc (by decide))
      (beq_false_of_isDigit c '\x7b' hc (by decide))
      (hshape ▸ hbreak)
    rw [← hshape, identValue_float (c :: t) ds2 h1 h2 hd1 hd2] at hval
    exact parsePdx_single_pair f ((c :: t) ++ '.' :: ds2) _ hval
  · intro f cs hq hb
    refine parsePdx_single_pair f ('"' :: (cs ++ ['"'])) _ ?_
    rw [show parseValueF (f + 1) ('"' :: (cs ++ ['"']))
        = some (.str (scan_string (cs ++ ['"'])).1, (scan_string (cs ++ ['"'])).2) from rfl,
      scan_string_plain cs hq hb]

/-- Witness for C6: the round-trip laws applied to the concrete literals
`yes`, `42`, `1.5` and `"ab"`. -/
theorem C6_scalar_round_trip_witness :
    parsePdxF 2 ('k' :: '=' :: "yes".toList) = some [(['k'], .bool true)] ∧
    parsePdxF 2 ('k' :: '=' :: "42".toList) = some [(['k'], .int 42)] ∧
    parsePdxF 2 ('k' :: '=' :: "1.5".toList) = some [(['k'], .float (mkRat 3 2))] ∧
    parsePdxF 2 ('k' :: '=' :: "\"ab\"".toList) = some [(['k'], .str ('a' :: ['b']))] := by
  refine ⟨?_, ?_, ?_, ?_⟩
  · exact C6_scalar_round_trip.1 0
  · exact C6_scalar_round_trip.2.2.1 0 ("42".toList) (by decide) (by decide)
  · have h := C6_scalar_round_trip.2.2.2.1 0 ['1'] ['5'] (by decide) (by decide)
      (by decide) (by decide)
    exact h
  · exact C6_scalar_round_trip.2.2.2.2 0 ('a' :: ['b']) (by decide) (by decide)

/-! ## Claim C8 -/

mutual

theorem skip_ws_sfx : ∀ s : List Char, skip_ws s <:+ s
  | [] => List.suffix_refl []
  | c :: rest => by
    unfold skip_ws
    cases h1 : isPdxWs c with
    | true =>
      simp only [if_true]
      exact (skip_ws_sfx rest).trans (List.suffix_cons c rest)
    | false =>
      simp only [Bool.false_eq_true, if_false]
      cases h2 : c == '#' with
      | true =>
        simp only [if_true]
        exact (skip_ws_comment_sfx rest).trans (List.suffix_cons c rest)
      | false =>
        simp only [Bool.false_eq_true, if_false]
        exact List.suffix_refl _

theorem skip_ws_comment_sfx : ∀ s : List Char, skip_ws_comment s <:+ s
  | [] => List.suffix_refl []
  | c :: rest => by
    unfold skip_ws_comment
    cases h1 : c == '\n' with
    | true =>
      simp only [if_true]
      exact (skip_ws_sfx rest).trans (List.suffix_cons c rest)
    | false =>
      simp only [Bool.false_eq_true, if_false]
      exact (skip_ws_comment_sfx rest).trans (List.suffix_cons c rest)

end

mutual

theorem skip_ws_sig : ∀ s : List Char, skip_ws s = [] ∨
    ∃ c rest, skip_ws s = c :: rest ∧ isPdxWs c = false ∧ (c == '#') = false
  | [] => Or.inl rfl
  | c :: rest => by
    unfold skip_ws
    cases h1 : isPdxWs c with
    | true =>
      simp only [if_true]
      exact skip_ws_sig rest
    | false =>
      simp only [Bool.false_eq_true, if_false]
      cases h2 : c == '#' with
      | true =>
        simp only [if_true]
        exact skip_ws_comment_sig rest
      | false =>
        simp only [Bool.false_eq_true, if_false]
        exact Or.inr ⟨c, rest, rfl, h1, h2⟩

theorem skip_ws_comment_sig : ∀ s : List Char, skip_ws_comment s = [] ∨
    ∃ c rest, skip_ws_comment s = c :: rest ∧ isPdxWs c = false ∧ (c == '#') = false
  | [] => Or.inl rfl
  | c :: rest => by
    unfold skip_ws_comment
    cases h1 : c == '\n' with
    | true =>
      simp only [if_true]
      exact skip_ws_sig rest
    | false =>
      simp only [Bool.false_eq_true, if_false]
      exact skip_ws_comment_sig rest

end

theorem skip_ws_idem (s : List Char) : skip_ws (skip_ws s) = skip_ws s := by
  rcases skip_ws_sig s with h | ⟨c, rest, h, h1, h2⟩
  · rw [h]; rfl
  · rw [h]
    exact skip_ws_cons_sig c rest h1 h2

theorem scan_ident_sfx : ∀ s : List Char, (scan_ident s).2 <:+ s
  | [] => List.suffix_refl []
  | c :: rest => by
    unfold scan_ident
    cases h1 : isIdentBreak c with
    | true =>
      simp only [if_true]
      exact List.suffix_refl _
    | false =>
      simp only [Bool.false_eq_true, if_false]
      exact (scan_ident_sfx rest).trans (List.suffix_cons c rest)

theorem scan_string_sfx (s : List Char) : (scan_string s).2 <:+ s := by
  induction s using scan_string.induct with
  | case1 => exact List.suffix_refl []
  | case2 c rest h =>
    unfold scan_string
    rw [if_pos h]
    exact List.suffix_cons c rest
  | case3 c h1 h2 =>
    unfold scan_string
    rw [if_neg h1, if_pos h2]
    exact List.nil_suffix
  | case4 c h1 h2 d rest2 ih =>
    unfold scan_string
    rw [if_neg h1, if_pos h2]
    exact ih.trans ((List.suffix_cons d rest2).trans (List.suffix_cons c (d :: rest2)))
  | case5 c rest h1 h2 ih =>
    unfold scan_string
    rw [if_neg h1, if_neg h2]
    exact ih.trans (List.suffix_cons c rest)

theorem eqAlwaysFollowed_spec :
    ∀ text : List Char, eqAlwaysFollowed text = true →
    ∀ rest : List Char, ('=' :: rest) <:+ text → skip_ws rest ≠ [] := by
  intro text
  induction text with
  | nil =>
    intro _ rest hsfx
    have := hsfx.length_le
    simp at this
  | cons c t ih =>
    intro h rest hsfx
    unfold eqAlwaysFollowed at h
    rw [Bool.and_eq_true] at h
    rcases List.suffix_cons_iff.mp hsfx with heq | hsfx2
    · rw [List.cons.injEq] at heq
      obtain ⟨hc, hrest⟩ := heq
      subst hrest
      have h1 := h.1
      rw [← hc, if_pos (show ('=' == '=') = true from rfl)] at h1
      intro hempty
      rw [hempty] at h1
      simp at h1
    · exact ih h.2 rest hsfx2

theorem nullFreeList_append (l1 l2 : List PValue) :
    nullFreeList (l1 ++ l2) = (nullFreeList l1 && nullFreeList l2) := by
  induction l1 with
  | nil => rfl
  | cons v rest ih =>
    show (nullFree v && nullFreeList (rest ++ l2)) = _
    rw [ih]
    show (nullFree v && (nullFreeList rest && nullFreeList l2))
      = ((nullFree v && nullFreeList rest) && nullFreeList l2)
    rw [Bool.and_assoc]

theorem nullFreeEntries_append (m1 m2 : List (List Char × PValue)) :
    nullFreeEntries (m1 ++ m2) = (nullFreeEntries m1 && nullFreeEntries m2) := by
  induction m1 with
  | nil => rfl
  | cons kv rest ih =>
    show (nullFree kv.2 && nullFreeEntries (rest ++ m2)) = _
    rw [ih]
    show (nullFree kv.2 && (nullFreeEntries rest && nullFreeEntries m2))
      = ((nullFree kv.2 && nullFreeEntries rest) && nullFreeEntries m2)
    rw [Bool.and_assoc]

theorem nullFree_appendDup (old v : PValue) (ho : nullFree old = true)
    (hv : nullFree v = true) : nullFree (appendDup old v) = true := by
  cases old with
  | list items =>
    show nullFreeList (items ++ [v]) = true
    rw [nullFreeList_append]
    have hone : nullFreeList [v] = true := by
      show (nullFree v && true) = true
      rw [hv]
      rfl
    have ho2 : nullFreeList items = true := ho
    rw [ho2, hone]
    rfl
  | str s => show (nullFree (.str s) && (nullFree v && true)) = true; rw [hv]; rfl
  | int n => show (nullFree (.int n) && (nullFree v && true)) = true; rw [hv]; rfl
  | float q => show (nullFree (.float q) && (nullFree v && true)) = true; rw [hv]; rfl
  | bool b => show (nullFree (.bool b) && (nullFree v && true)) = true; rw [hv]; rfl
  | dict m =>
    show (nullFree (.dict m) && (nullFree v && true)) = true
    rw [ho, hv]
    rfl
  | null => exact Bool.noConfusion ho

theorem nullFreeEntries_insertDup (m : List (List Char × PValue)) (k : List Char)
    (v : PValue) (hm : nullFreeEntries m = true) (hv : nullFree v = true) :
    nullFreeEntries (insertDup m k v) = true := by
  unfold insertDup
  by_cases hs : (lookupVal m k).isSome = true
  · rw [if_pos hs]
    clear hs
    induction m with
    | nil => rfl
    | cons kv rest ih =>
      have hm1 : nullFree kv.2 = true := by
        rw [show nullFreeEntries (kv :: rest) = (nullFree kv.2 && nullFreeEntries rest)
          from rfl, Bool.and_eq_true] at hm
        exact hm.1
      have hm2 : nullFreeEntries rest = true := by
        rw [show nullFreeEntries (kv :: rest) = (nullFree kv.2 && nullFreeEntries rest)
          from rfl, Bool.and_eq_true] at hm
        exact hm.2
      rw [List.map_cons]
      show (nullFree (if kv.1 = k then (kv.1, appendDup kv.2 v) else kv).2 &&
        nullFreeEntries (rest.map _)) = true
      rw [Bool.and_eq_true]
      refine ⟨?_, ih hm2⟩
      by_cases hk : kv.1 = k
      · rw [if_pos hk]
        exact nullFree_appendDup kv.2 v hm1 hv
      · rw [if_neg hk]
        exact hm1
  · rw [if_neg hs]
    rw [nullFreeEntries_append, hm]
    show (true && (nullFree v && true)) = true
    rw [hv]
    rfl

theorem identValue_nullFree (t : List Char) : nullFree (identValue t) = true := by
  unfold identValue
  split
  · rfl
  · split
    · rfl
    · split
      · split
        · rfl
        · rfl
      · split
        · rfl
        · rfl

theorem parse_nullFree_inv (text : List Char)
    (hG : ∀ rest : List Char, ('=' :: rest) <:+ text → skip_ws rest ≠ []) :
    ∀ fuel : Nat,
    (∀ s v r, s <:+ text → skip_ws s ≠ [] → parseValueF fuel s = some (v, r) →
      nullFree v = true ∧ r <:+ text) ∧
    (∀ s v r, s <:+ text → parseBlockF fuel s = some (v, r) →
      nullFree v = true ∧ r <:+ text) ∧
    (∀ s acc m r, s <:+ text → nullFreeEntries acc = true →
      parseDictF fuel s acc = some (m, r) → nullFreeEntries m = true ∧ r <:+ text) ∧
    (∀ s acc l r, s <:+ text → nullFreeList acc = true →
      parseListF fuel s acc = some (l, r) → nullFreeList l = true ∧ r <:+ text) := by
  intro fuel
  induction fuel with
  | zero =>
    refine ⟨?_, ?_, ?_, ?_⟩
    · intro s v r _ _ hp
      exact Option.noConfusion hp
    · intro s v r _ hp
      exact Option.noConfusion hp
    · intro s acc m r _ _ hp
      exact Option.noConfusion hp
    · intro s acc l r _ _ hp
      exact Option.noConfusion hp
  | succ n ih =>
    obtain ⟨ihV, ihB, ihD, ihL⟩ := ih
    refine ⟨?_, ?_, ?_, ?_⟩
    · -- parse_value
      intro s v r hs hsw hp
      unfold parseValueF at hp
      cases hsw2 : skip_ws s with
      | nil => exact absurd hsw2 hsw
      | cons c rest =>
        rw [hsw2] at hp
        have hsfx : c :: rest <:+ text := by
          have h0 := skip_ws_sfx s
          rw [hsw2] at h0
          exact h0.trans hs
        have hp2 : (if (c == '"') = true then
              some (PValue.str (scan_string rest).1, (scan_string rest).2)
            else if (c == '\x7b') = true then parseBlockF n (c :: rest)
            else some (identValue (scan_ident (c :: rest)).1, (scan_ident (c :: rest)).2))
            = some (v, r) := hp
        by_cases hq : (c == '"') = true
        · rw [if_pos hq] at hp2
          simp only [Option.some.injEq, Prod.mk.injEq] at hp2
          refine ⟨hp2.1 ▸ rfl, hp2.2 ▸ ?_⟩
          exact (scan_string_sfx rest).trans ((List.suffix_cons c rest).trans hsfx)
        · rw [if_neg hq] at hp2
          by_cases hb : (c == '\x7b') = true
          · rw [if_pos hb] at hp2
            exact ihB (c :: rest) v r hsfx hp2
          · rw [if_neg hb] at hp2
            simp only [Option.some.injEq, Prod.mk.injEq] at hp2
            refine ⟨hp2.1 ▸ identValue_nullFree _, hp2.2 ▸ ?_⟩
            exact (scan_ident_sfx (c :: rest)).trans hsfx
    · -- parse_block
      intro s v r hs hp
      unfold parseBlockF at hp
      cases hsw2 : skip_ws (s.drop 1) with
      | nil =>
        rw [hsw2] at hp
        have hp2 : some (PValue.dict [], ([] : List Char)) = some (v, r) := hp
        simp only [Option.some.injEq, Prod.mk.injEq] at hp2
        exact ⟨hp2.1 ▸ rfl, hp2.2 ▸ List.nil_suffix⟩
      | cons c rest =>
        rw [hsw2] at hp
        have hsfx : c :: rest <:+ text := by
          have h0 := skip_ws_sfx (s.drop 1)
          rw [hsw2] at h0
          exact h0.trans ((List.drop_suffix 1 s).trans hs)
        have hp2 : (if (c == '\x7d') = true then some (PValue.dict [], rest)
            else if scan_is_dict (c :: rest) 0 = true then
              Option.map (fun q => (PValue.dict q.1, q.2)) (parseDictF n (c :: rest) [])
            else Option.map (fun q => (PValue.list q.1, q.2)) (parseListF n (c :: rest) []))
            = some (v, r) := hp
        by_cases hc : (c == '\x7d') = true
        · rw [if_pos hc] at hp2
          simp only [Option.some.injEq, Prod.mk.injEq] at hp2
          exact ⟨hp2.1 ▸ rfl, hp2.2 ▸ (List.suffix_cons c rest).trans hsfx⟩
        · rw [if_neg hc] at hp2
          by_cases hsd : scan_is_dict (c :: rest) 0 = true
          · rw [if_pos hsd] at hp2
            cases hd : parseDictF n (c :: rest) [] with
            | none => rw [hd] at hp2; exact Option.noConfusion hp2
            | some pr =>
              rw [hd] at hp2
              simp only [Option.map_some', Option.some.injEq, Prod.mk.injEq] at hp2
              obtain ⟨hm, hr⟩ := ihD (c :: rest) [] pr.1 pr.2 hsfx rfl hd
              exact ⟨hp2.1 ▸ hm, hp2.2 ▸ hr⟩
          · rw [if_neg hsd] at hp2
            cases hl : parseListF n (c :: rest) [] with
            | none => rw [hl] at hp2; exact Option.noConfusion hp2
            | some pr =>
              rw [hl] at hp2
              simp only [Option.map_some', Option.some.injEq, Prod.mk.injEq] at hp2
              obtain ⟨hm, hr⟩ := ihL (c :: rest) [] pr.1 pr.2 hsfx rfl hl
              exact ⟨hp2.1 ▸ hm, hp2.2 ▸ hr⟩
    · -- parse_dict_contents
      intro s acc m r hs hacc hp
      unfold parseDictF at hp
      cases hsw2 : skip_ws s with
      | nil =>
        rw [hsw2] at hp
        have hp2 : some (acc, ([] : List Char)) = some (m, r) := hp
        simp only [Option.some.injEq, Prod.mk.injEq] at hp2
        exact ⟨hp2.1 ▸ hacc, hp2.2 ▸ List.nil_suffix⟩
      | cons c rest =>
        rw [hsw2] at hp
        have hsfx : c :: rest <:+ text := by
          have h0 := skip_ws_sfx s
          rw [hsw2] at h0
          exact h0.trans hs
        have hp2 : (if (c == '\x7d') = true then some (acc, rest)
            else
              match skip_ws (if (c == '"') = true then scan_string rest
                  else scan_ident (c :: rest)).2 with
              | [] => parseDictF n [] acc
              | c2 :: rest2 =>
                if (c2 == '=') = true then
                  match parseValueF n rest2 with
                  | none => none
                  | some (v2, s3) =>
                    parseDictF n s3 (insertDup acc
                      (if (c == '"') = true then scan_string rest
                        else scan_ident (c :: rest)).1 v2)
                else parseDictF n (c2 :: rest2) acc)
            = some (m, r) := hp
        by_cases hc : (c == '\x7d') = true
        · rw [if_pos hc] at hp2
          simp only [Option.some.injEq, Prod.mk.injEq] at hp2
          exact ⟨hp2.1 ▸ hacc, hp2.2 ▸ (List.suffix_cons c rest).trans hsfx⟩
        · rw [if_neg hc] at hp2
          have hkp : (if (c == '"') = true then scan_string rest
              else scan_ident (c :: rest)).2 <:+ text := by
            by_cases hcq : (c == '"') = true
            · rw [if_pos hcq]
              exact (scan_string_sfx rest).trans ((List.suffix_cons c rest).trans hsfx)
            · rw [if_neg hcq]
              exact (scan_ident_sfx (c :: rest)).trans hsfx
          cases hsw3 : skip_ws (if (c == '"') = true then scan_string rest
              else scan_ident (c :: rest)).2 with
          | nil =>
            rw [hsw3] at hp2
            have hp3 : parseDictF n [] acc = some (m, r) := hp2
            exact ihD [] acc m r List.nil_suffix hacc hp3
          | cons c2 rest2 =>
            rw [hsw3] at hp2
            have hs2fx : c2 :: rest2 <:+ text := by
              have h0 := skip_ws_sfx (if (c == '"') = true then scan_string rest
                else scan_ident (c :: rest)).2
              rw [hsw3] at h0
              exact h0.trans hkp
            have hp3 : (if (c2 == '=') = true then
                  match parseValueF n rest2 with
                  | none => none
                  | some (v2, s3) =>
                    parseDictF n s3 (insertDup acc
                      (if (c == '"') = true then scan_string rest
                        else scan_ident (c :: rest)).1 v2)
                else parseDictF n (c2 :: rest2) acc)
                = some (m, r) := hp2
            by_cases hc2 : (c2 == '=') = true
            · rw [if_pos hc2] at hp3
              have heqc2 : c2 = '=' := beq_iff_eq.mp hc2
              have hrest2sfx : rest2 <:+ text :=
                (List.suffix_cons c2 rest2).trans hs2fx
              have hswr2 : skip_ws rest2 ≠ [] := by
                apply hG rest2
                rw [← heqc2]
                exact hs2fx
              cases hpv : parseValueF n rest2 with
              | none => rw [hpv] at hp3; exact Option.noConfusion hp3
              | some pv2 =>
                rw [hpv] at hp3
                obtain ⟨hv2, hs3⟩ := ihV rest2 pv2.1 pv2.2 hrest2sfx hswr2 (by
                  rw [hpv])
                have hp4 : parseDictF n pv2.2 (insertDup acc
                    (if (c == '"') = true then scan_string rest
                      else scan_ident (c :: rest)).1 pv2.1) = some (m, r) := hp3
                exact ihD pv2.2 _ m r hs3
                  (nullFreeEntries_insertDup acc _ pv2.1 hacc hv2) hp4
            · rw [if_neg hc2] at hp3
              exact ihD (c2 :: rest2) acc m r hs2fx hacc hp3
    · -- parse_list_contents
      intro s acc l r hs hacc hp
      unfold parseListF at hp
      cases hsw2 : skip_ws s with
      | nil =>
        rw [hsw2] at hp
        have hp2 : some (acc, ([] : List Char)) = some (l, r) := hp
        simp only [Option.some.injEq, Prod.mk.injEq] at hp2
        exact ⟨hp2.1 ▸ hacc, hp2.2 ▸ List.nil_suffix⟩
      | cons c rest =>
        rw [hsw2] at hp
        have hsfx : c :: rest <:+ text := by
          have h0 := skip_ws_sfx s
          rw [hsw2] at h0
          exact h0.trans hs
        have hp2 : (if (c == '\x7d') = true then some (acc, rest)
            else
              match parseValueF n (c :: rest) with
              | none => none
              | some (v2, s2) => parseListF n s2 (acc ++ [v2]))
            = some (l, r) := hp
        by_cases hc : (c == '\x7d') = true
        · rw [if_pos hc] at hp2
          simp only [Option.some.injEq, Prod.mk.injEq] at hp2
          exact ⟨hp2.1 ▸ hacc, hp2.2 ▸ (List.suffix_cons c rest).trans hsfx⟩
        · rw [if_neg hc] at hp2
          have hswself : skip_ws (c :: rest) ≠ [] := by
            have hidem := skip_ws_idem s
            rw [hsw2] at hidem
            rw [hidem]
            exact List.cons_ne_nil c rest
          cases hpv : parseValueF n (c :: rest) with
          | none => rw [hpv] at hp2; exact Option.noConfusion hp2
          | some pv2 =>
            rw [hpv] at hp2
            obtain ⟨hv2, hs2⟩ := ihV (c :: rest) pv2.1 pv2.2 hsfx hswself (by rw [hpv])
            have hp3 : parseListF n pv2.2 (acc ++ [pv2.1]) = some (l, r) := hp2
            have haccv : nullFreeList (acc ++ [pv2.1]) = true := by
              rw [nullFreeList_append, hacc]
              show (true && (nullFree pv2.1 && true)) = true
              rw [hv2]
              rfl
            exact ihL pv2.2 (acc ++ [pv2.1]) l r hs2 haccv hp3

/-- Counterexample for C8: on the truncated input `a=` the parser stores
Python's `None` under `a` — `parse_value` returns `None` at end of input
(parser.py lines 66-67) and `parse_dict_contents` stores it — so a parse
result can contain a value outside
String/Integer/Float/Boolean/Mapping/Sequence. -/
theorem C8_null_value_counterexample :
    parsePdxF 20 ("a=".toList) = some [("a".toList, PValue.null)] ∧
    nullFreeEntries [("a".toList, PValue.null)] = false :=
  ⟨rfl, rfl⟩

/-- C8 amended: no null appears in any parse result PROVIDED every `=` in
the input is followed (after whitespace and comments) by at least one
significant character — i.e. the input does not end in a dangling `=`; on
such inputs every value in the resulting tree is a String, Integer, Float,
Boolean, Mapping or Sequence. -/
theorem C8_no_null_for_complete_inputs :
    ∀ (fuel : Nat) (text : List Char) (m : List (List Char × PValue)),
    eqAlwaysFollowed text = true → parsePdxF fuel text = some m →
    nullFreeEntries m = true := by
  intro fuel text m hG hp
  unfold parsePdxF at hp
  cases hd : parseDictF fuel text [] with
  | none => rw [hd] at hp; exact Option.noConfusion hp
  | some pr =>
    rw [hd] at hp
    simp only [Option.map_some', Option.some.injEq] at hp
    have hinv := (parse_nullFree_inv text (eqAlwaysFollowed_spec text hG) fuel).2.2.1
    obtain ⟨hm, _⟩ := hinv text [] pr.1 pr.2 (List.suffix_refl text) rfl hd
    exact hp ▸ hm

/-- Witness for C8: the amended law applied to the complete input `a=1`. -/
theorem C8_no_null_for_complete_inputs_witness :
    nullFreeEntries [("a".toList, PValue.int 1)] = true :=
  C8_no_null_for_complete_inputs 20 ("a=1".toList) [("a".toList, PValue.int 1)]
    (by rfl) (by rfl)

end EU5

